import Mathlib

/-!
Shallow embedding of the core of the `config_setup_pipeline` repository:

* `src/src/pipeline/base.py` — the `Pipeline` executor over a list of
  `PipelineStage`s (skip / validate / dry-run / resume / stop-after logic),
* `src/src/review/reviewer.py` — the `ConfigReviewer` aggregation pattern
  (per-source failure isolation, confidence filtering, deduplication,
  severity/confidence ranking).

Stages are modelled as records of pure functions; a stage's `run` may fail,
which models a Python exception (`Except.error` carries the message).  The
executor is instrumented to record, in order, every invocation of a stage
operation (`should_skip`, `validate_input`, `run`) so that claims about
"stage X is never invoked" become statements about the trace.
-/

/-- The pipeline context (`PipelineContext` in `src/src/models.py`).  Only the
two state fields read or written by `Pipeline.run` itself are modelled; the
payload fields (`profile`, `answers`, `patterns`, …) are owned by the
individual stages' `run` functions, which are arbitrary functions in this
embedding. -/
structure PipelineContext where
  current_stage : String
  completed_stages : List String
deriving Repr, DecidableEq

/-- A pipeline stage (`PipelineStage` in `src/src/pipeline/base.py`): a name
plus the `run` / `should_skip` / `validate_input` operations.  `run` returns
`Except.error msg` to model a raised exception. -/
structure PipelineStage where
  name : String
  should_skip : PipelineContext → Bool
  validate_input : PipelineContext → Bool
  run : PipelineContext → Except String PipelineContext

/-- One recorded invocation of a stage operation. -/
inductive Event where
  | skipCheck (name : String)
  | validateCheck (name : String)
  | runCall (name : String)
deriving Repr, DecidableEq

/-- The stage name an event belongs to. -/
def Event.stageName : Event → String
  | .skipCheck n => n
  | .validateCheck n => n
  | .runCall n => n

/-- How a run of the stage list ends: it finishes the whole list, breaks out
early because of `stop_after`, or raises (`ValueError` on failed input
validation, or the exception re-raised from a stage's `run`). -/
inductive Outcome where
  | finished (ctx : PipelineContext)
  | stoppedAfter (ctx : PipelineContext)
  | failed (msg : String)
deriving Repr, DecidableEq

/-- Prefix a trace onto a `(trace, outcome)` pair. -/
def withEvents (es : List Event) (r : List Event × Outcome) : List Event × Outcome :=
  (es ++ r.1, r.2)

/-- The Python guard `if stop_after and stage.name == stop_after` (the empty
string is falsy in Python). -/
def stopHit (stopAfter : Option String) (name : String) : Bool :=
  match stopAfter with
  | none => false
  | some s => if s = "" then false else name = s

/-- What one iteration of the stage loop does: either fall through to the
next stage (the `continue` paths) with the recorded events and the updated
context, or end the whole run (a raise, or the `stop_after` break). -/
inductive StepRes where
  | cont (events : List Event) (ctx : PipelineContext)
  | halt (events : List Event) (out : Outcome)
deriving Repr

/-- The body of the stage loop of `Pipeline.run` (`src/src/pipeline/base.py`,
lines 127–171) for one stage, in source order: set `context.current_stage`;
evaluate `should_skip` (skip on true); evaluate `validate_input` (on false:
raise `ValueError` in non-dry-run mode, otherwise skip); in dry-run mode
advance without calling `run`; otherwise call `run`, appending the stage name
to `completed_stages` on success and re-raising the exception on failure;
finally break out of the loop if the stage name equals `stop_after`. -/
def stageStep (dryRun : Bool) (stopAfter : Option String) (stage : PipelineStage)
    (ctx : PipelineContext) : StepRes :=
  let c : PipelineContext := { ctx with current_stage := stage.name }
  if stage.should_skip c then
    .cont [.skipCheck stage.name] c
  else if stage.validate_input c = false then
    if dryRun = false then
      .halt [.skipCheck stage.name, .validateCheck stage.name]
        (.failed ("Stage " ++ stage.name ++ " cannot run - missing inputs"))
    else
      .cont [.skipCheck stage.name, .validateCheck stage.name] c
  else if dryRun then
    .cont [.skipCheck stage.name, .validateCheck stage.name] c
  else
    match stage.run c with
    | .error e =>
      .halt [.skipCheck stage.name, .validateCheck stage.name, .runCall stage.name] (.failed e)
    | .ok c2 =>
      let c3 : PipelineContext :=
        { c2 with completed_stages := c2.completed_stages ++ [stage.name] }
      if stopHit stopAfter stage.name then
        .halt [.skipCheck stage.name, .validateCheck stage.name, .runCall stage.name]
          (.stoppedAfter c3)
      else
        .cont [.skipCheck stage.name, .validateCheck stage.name, .runCall stage.name] c3

/-- The stage loop of `Pipeline.run`, iterated over the remaining stage list
by chaining `stageStep`. -/
def runStages (dryRun : Bool) (stopAfter : Option String) :
    List PipelineStage → PipelineContext → List Event × Outcome
  | [], ctx => ([], .finished ctx)
  | stage :: rest, ctx =>
    match stageStep dryRun stopAfter stage ctx with
    | .cont es c => withEvents es (runStages dryRun stopAfter rest c)
    | .halt es out => (es, out)

/-- The start-index computation of `Pipeline.run` (`src/src/pipeline/base.py`,
lines 109–115): if `start_from` is truthy, linearly scan for the first stage
with that name; if nothing matches (or `start_from` is absent / empty), the
start index stays 0. -/
def startIndex (stages : List PipelineStage) (startFrom : Option String) : Nat :=
  match startFrom with
  | none => 0
  | some s =>
    if s = "" then 0
    else
      match stages.findIdx? (fun st => st.name = s) with
      | some i => i
      | none => 0

/-- Result of a pipeline run: the ordered trace of stage-operation
invocations, and the outcome. -/
structure RunResult where
  trace : List Event
  outcome : Outcome
deriving Repr, DecidableEq

/-- The executor entry point `Pipeline.run` (`src/src/pipeline/base.py`, lines 87–173): compute the
start index from `start_from`, then iterate the stage loop over the suffix
`stages[start_idx:]`. -/
def Pipeline.run (stages : List PipelineStage) (ctx : PipelineContext)
    (dryRun : Bool) (startFrom : Option String) (stopAfter : Option String) : RunResult :=
  let r := runStages dryRun stopAfter (stages.drop (startIndex stages startFrom)) ctx
  ⟨r.1, r.2⟩

/-- A stage with constant skip flag, always-valid input and a `run` that
returns the context unchanged; used for the concrete end-to-end scenarios. -/
def simpleStage (n : String) (skip : Bool) : PipelineStage :=
  { name := n
    should_skip := fun _ => skip
    validate_input := fun _ => true
    run := fun c => .ok c }

example :
    Pipeline.run [simpleStage "a" false, simpleStage "b" true] ⟨"", []⟩ false none none =
      ⟨[.skipCheck "a", .validateCheck "a", .runCall "a", .skipCheck "b"],
        .finished ⟨"b", ["a"]⟩⟩ := by
  decide

/-!
Embedding of `ConfigReviewer` (`src/src/review/reviewer.py`): the
fan-out/fan-in aggregation over review sources.  Each source's network call
and JSON extraction is modelled by its outcome: `Except.error msg` for a
raised exception (isolated by the `try`/`except` blocks in
`_review_with_openai` / `_review_with_gemini` and around `future.result()` in
`review`), or `Except.ok data` carrying the decoded JSON payload.  The
sources are listed in completion order, which the code does not fix.
-/

/-- One issue dict from a model's JSON reply; every field is optional because
the Python code reads each with `item.get(key, default)`. -/
structure RawItem where
  severity : Option String
  category : Option String
  message : Option String
  suggestion : Option String
  file : Option String
  confidence : Option Int
deriving Repr, DecidableEq

/-- The decoded JSON payload of one source (`data` in `_parse_issues`): its
`issues` list. -/
structure ReviewData where
  issues : List RawItem
deriving Repr, DecidableEq

/-- A parsed finding (`ReviewIssue` dataclass in `src/src/review/reviewer.py`). -/
structure ReviewIssue where
  severity : String
  category : String
  message : String
  suggestion : String
  source : String
  file : String
  confidence : Int
deriving Repr, DecidableEq

/-- Construction of one `ReviewIssue` from a raw item, with the defaults used
in `_parse_issues` (lines 253–261). -/
def parseItem (source : String) (item : RawItem) : ReviewIssue :=
  { severity := item.severity.getD "medium"
    category := item.category.getD "improvement"
    message := item.message.getD ""
    suggestion := item.suggestion.getD ""
    source := source
    file := item.file.getD ""
    confidence := item.confidence.getD 80 }

/-- The parser `ConfigReviewer._parse_issues` (lines 248–262): keep exactly the raw items
whose `confidence` (default 0) is at least 80, in order, each converted by
`parseItem`. -/
def parseIssues (data : ReviewData) (source : String) : List ReviewIssue :=
  (data.issues.filter (fun item => 80 ≤ item.confidence.getD 0)).map (parseItem source)

/-- The deduplication key of `_deduplicate_issues` (line 270):
`(issue.category, issue.message[:50].lower())`.  A Python string is a
sequence of code points, so the 50-character slice and the lowercasing are
modelled on the string's character list. -/
def issueKey (i : ReviewIssue) : String × List Char :=
  (i.category, (i.message.data.take 50).map Char.toLower)

/-- The first-seen deduplication loop of `_deduplicate_issues` (lines
266–273): walk the issue list keeping an issue exactly when its key has not
been seen before. -/
def dedupBy : List ReviewIssue → List (String × List Char) → List ReviewIssue
  | [], _ => []
  | i :: rest, seen =>
    if issueKey i ∈ seen then dedupBy rest seen
    else i :: dedupBy rest (issueKey i :: seen)

/-- The severity rank `severity_order.get(i.severity, 4)` with
`severity_order = {"critical": 0, "high": 1, "medium": 2, "low": 3}`. -/
def severityOrder (s : String) : Nat :=
  if s = "critical" then 0
  else if s = "high" then 1
  else if s = "medium" then 2
  else if s = "low" then 3
  else 4

/-- The sort key of `_deduplicate_issues` (line 277):
`(severity_order.get(i.severity, 4), -i.confidence)`. -/
def issueSortKey (i : ReviewIssue) : Nat × Int :=
  (severityOrder i.severity, -i.confidence)

/-- Lexicographic comparison of sort keys, as Python compares the key tuples. -/
def keyLe (a b : Nat × Int) : Prop :=
  a.1 < b.1 ∨ (a.1 = b.1 ∧ a.2 ≤ b.2)

instance : DecidableRel keyLe := fun a b => by
  unfold keyLe; infer_instance

/-- Python's `unique.sort(key=...)` orders issues by comparing their key
tuples. -/
def issueLe (a b : ReviewIssue) : Prop :=
  keyLe (issueSortKey a) (issueSortKey b)

instance : DecidableRel issueLe := fun a b => by
  unfold issueLe; infer_instance

/-- The combiner `ConfigReviewer._deduplicate_issues` (lines 264–279): first-seen
deduplication, then a stable sort by `(severity rank, -confidence)`.
Python's `list.sort` is a stable sort; it is modelled by insertion sort with
the non-strict comparison, which is stable. -/
def deduplicateIssues (issues : List ReviewIssue) : List ReviewIssue :=
  List.insertionSort issueLe (dedupBy issues [])

/-- One source's contribution inside `review`: a source that raises
contributes no findings (the exception is caught and logged), a succeeding
source contributes its parsed, confidence-filtered issues. -/
def runSource (source : String) (result : Except String ReviewData) : List ReviewIssue :=
  match result with
  | .ok data => parseIssues data source
  | .error _ => []

/-- The fan-in loop of `review` (lines 88–95): `self.issues` starts empty and
is extended with each completing source's findings. -/
def collectIssues (results : List (String × Except String ReviewData)) : List ReviewIssue :=
  results.foldl (fun acc p => acc ++ runSource p.1 p.2) []

/-- The aggregation `ConfigReviewer.review` (lines 73–120), restricted to the issue list it
returns: collect the surviving sources' findings, then deduplicate and rank. -/
def review (results : List (String × Except String ReviewData)) : List ReviewIssue :=
  deduplicateIssues (collectIssues results)

/-- Whether a source outcome is a success. -/
def sourceOk (r : Except String ReviewData) : Bool :=
  match r with
  | .ok _ => true
  | .error _ => false

/-!
Helper lemmas about the stage loop.
-/

/-- The events recorded by one loop iteration, whichever way it ends. -/
def StepRes.events : StepRes → List Event
  | .cont es _ => es
  | .halt es _ => es

/-- One loop iteration records one of exactly three event lists: a lone skip
check, a skip check plus an input validation, or those two followed by a call
of `run`. -/
theorem stageStep_events_shape (d : Bool) (sa : Option String) (stage : PipelineStage)
    (ctx : PipelineContext) :
    (stageStep d sa stage ctx).events = [Event.skipCheck stage.name] ∨
    (stageStep d sa stage ctx).events =
      [Event.skipCheck stage.name, Event.validateCheck stage.name] ∨
    (stageStep d sa stage ctx).events =
      [Event.skipCheck stage.name, Event.validateCheck stage.name, Event.runCall stage.name] := by
  unfold stageStep
  by_cases h1 : stage.should_skip { ctx with current_stage := stage.name }
  · simp [h1, StepRes.events]
  · by_cases h2 : stage.validate_input { ctx with current_stage := stage.name }
    · by_cases hd : d
      · simp [h1, h2, hd, StepRes.events]
      · rcases hr : stage.run { ctx with current_stage := stage.name } with e' | c2
        · simp [h1, h2, hd, hr, StepRes.events]
        · by_cases hsa : stopHit sa stage.name
          · simp [h1, h2, hd, hr, hsa, StepRes.events]
          · simp [h1, h2, hd, hr, hsa, StepRes.events]
    · by_cases hd : d
      · simp [h1, h2, hd, StepRes.events]
      · simp [h1, h2, hd, StepRes.events]

/-- Every event recorded by one loop iteration names the stage of that
iteration. -/
theorem stageStep_events_name (d : Bool) (sa : Option String) (stage : PipelineStage)
    (ctx : PipelineContext) :
    ∀ e ∈ (stageStep d sa stage ctx).events, e.stageName = stage.name := by
  intro e he
  rcases stageStep_events_shape d sa stage ctx with h | h | h <;> rw [h] at he <;>
    simp only [List.mem_cons, List.not_mem_nil, or_false] at he
  · cases he; rfl
  · rcases he with rfl | rfl <;> rfl
  · rcases he with rfl | rfl | rfl <;> rfl

/-- A halting iteration ends the run with a raise or a `stop_after` break,
never with the `finished` outcome (that is produced only by exhausting the
stage list). -/
theorem stageStep_halt_not_finished (d : Bool) (sa : Option String) (stage : PipelineStage)
    (ctx : PipelineContext) (es : List Event) (c : PipelineContext) :
    stageStep d sa stage ctx ≠ .halt es (.finished c) := by
  unfold stageStep
  by_cases h1 : stage.should_skip { ctx with current_stage := stage.name }
  · simp [h1]
  · by_cases h2 : stage.validate_input { ctx with current_stage := stage.name }
    · by_cases hd : d
      · simp [h1, h2, hd]
      · rcases hr : stage.run { ctx with current_stage := stage.name } with e' | c2
        · simp [h1, h2, hd, hr]
        · by_cases hsa : stopHit sa stage.name
          · simp [h1, h2, hd, hr, hsa]
          · simp [h1, h2, hd, hr, hsa]
    · by_cases hd : d
      · simp [h1, h2, hd]
      · simp [h1, h2, hd]

/-- In dry-run mode an iteration always falls through to the next stage,
records no `run` invocation, and leaves `completed_stages` untouched. -/
theorem stageStep_dryRun (sa : Option String) (stage : PipelineStage) (ctx : PipelineContext) :
    ∃ es c, stageStep true sa stage ctx = .cont es c ∧
      (∀ n, Event.runCall n ∉ es) ∧ c.completed_stages = ctx.completed_stages := by
  unfold stageStep
  by_cases h1 : stage.should_skip { ctx with current_stage := stage.name }
  · exact ⟨[.skipCheck stage.name], { ctx with current_stage := stage.name },
      by simp [h1], by simp, rfl⟩
  · by_cases h2 : stage.validate_input { ctx with current_stage := stage.name }
    · exact ⟨[.skipCheck stage.name, .validateCheck stage.name],
        { ctx with current_stage := stage.name }, by simp [h1, h2], by simp, rfl⟩
    · exact ⟨[.skipCheck stage.name, .validateCheck stage.name],
        { ctx with current_stage := stage.name }, by simp [h1, h2], by simp, rfl⟩

/-- A non-dry-run iteration of a stage whose `should_skip` is false and whose
`validate_input` is false raises `ValueError` naming the stage
(`src/src/pipeline/base.py`, line 147). -/
theorem stageStep_invalid (sa : Option String) (stage : PipelineStage) (ctx : PipelineContext)
    (h1 : stage.should_skip { ctx with current_stage := stage.name } = false)
    (h2 : stage.validate_input { ctx with current_stage := stage.name } = false) :
    stageStep false sa stage ctx =
      .halt [.skipCheck stage.name, .validateCheck stage.name]
        (.failed ("Stage " ++ stage.name ++ " cannot run - missing inputs")) := by
  unfold stageStep
  simp [h1, h2]

/-- Behaviour of one iteration on a `simpleStage` in non-dry-run mode. -/
theorem stageStep_simple (sa : Option String) (n : String) (skip : Bool)
    (ctx : PipelineContext) :
    stageStep false sa (simpleStage n skip) ctx =
      if skip then .cont [.skipCheck n] { ctx with current_stage := n }
      else if stopHit sa n then
        .halt [.skipCheck n, .validateCheck n, .runCall n]
          (.stoppedAfter { current_stage := n, completed_stages := ctx.completed_stages ++ [n] })
      else
        .cont [.skipCheck n, .validateCheck n, .runCall n]
          { current_stage := n, completed_stages := ctx.completed_stages ++ [n] } := by
  unfold stageStep simpleStage
  cases skip <;> by_cases hsa : stopHit sa n <;> simp [hsa]

/-- Every event recorded by the stage loop belongs to a stage of the list the
loop was given: the loop never touches a stage outside its list. -/
theorem runStages_trace_names (d : Bool) (sa : Option String) (l : List PipelineStage) :
    ∀ (ctx : PipelineContext), ∀ e ∈ (runStages d sa l ctx).1,
      e.stageName ∈ l.map PipelineStage.name := by
  induction l with
  | nil => intro ctx e he; simp [runStages] at he
  | cons stage rest ih =>
    intro ctx e he
    rw [runStages] at he
    rcases hs : stageStep d sa stage ctx with ⟨es, c⟩ | ⟨es, out⟩ <;> rw [hs] at he
    · rcases List.mem_append.mp he with h | h
      · have := stageStep_events_name d sa stage ctx e (by rw [hs]; exact h)
        simp [this]
      · exact List.mem_cons.mpr (Or.inr (ih _ e h))
    · have := stageStep_events_name d sa stage ctx e (by rw [hs]; exact he)
      simp [this]

/-- Sequencing: running `l₁ ++ l₂` first runs `l₁`; if that finishes the list
normally, the loop continues with `l₂` from the resulting context, and if it
raised or broke on `stop_after` inside `l₁`, the run ends there and `l₂` is
never touched. -/
theorem runStages_append (d : Bool) (sa : Option String) (l₁ l₂ : List PipelineStage) :
    ∀ ctx : PipelineContext,
      runStages d sa (l₁ ++ l₂) ctx =
        match (runStages d sa l₁ ctx).2 with
        | .finished c => withEvents (runStages d sa l₁ ctx).1 (runStages d sa l₂ c)
        | _ => runStages d sa l₁ ctx := by
  induction l₁ with
  | nil => intro ctx; simp [runStages, withEvents]
  | cons stage rest ih =>
    intro ctx
    rw [List.cons_append]
    rw [runStages, runStages]
    rcases hs : stageStep d sa stage ctx with ⟨es, c⟩ | ⟨es, out⟩
    · dsimp only
      rw [ih c]
      rcases h2 : (runStages d sa rest c).2 with c' | c' | m <;>
        simp [withEvents, h2, List.append_assoc]
    · dsimp only
      rcases out with c' | c' | m
      · exact absurd hs (stageStep_halt_not_finished d sa stage ctx es c')
      · simp [withEvents]
      · simp [withEvents]

/-- In dry-run mode the stage loop records no `run` invocation, never raises
and never breaks, and returns a context whose `completed_stages` is exactly
the one it was given. -/
theorem runStages_dryRun (sa : Option String) (l : List PipelineStage) :
    ∀ ctx : PipelineContext,
      (∀ n, Event.runCall n ∉ (runStages true sa l ctx).1) ∧
      ∃ c, (runStages true sa l ctx).2 = .finished c ∧
        c.completed_stages = ctx.completed_stages := by
  induction l with
  | nil => intro ctx; exact ⟨by simp [runStages], ctx, rfl, rfl⟩
  | cons stage rest ih =>
    intro ctx
    obtain ⟨es, c, hs, hes, hc⟩ := stageStep_dryRun sa stage ctx
    rw [runStages, hs]
    obtain ⟨ih1, c', hc', hcc⟩ := ih c
    refine ⟨?_, c', ?_, ?_⟩
    · intro n hn
      rcases List.mem_append.mp hn with h | h
      · exact hes n h
      · exact ih1 n h
    · simpa [withEvents] using hc'
    · rw [hcc, hc]

/-- Running a list of `simpleStage`s with no `stop_after` finishes, records
the skip check of every stage plus validation and `run` for the non-skipped
ones, and appends exactly the non-skipped stage names to `completed_stages`. -/
theorem runStages_simpleList (ps : List (String × Bool)) :
    ∀ ctx : PipelineContext,
      (runStages false none (ps.map (fun p => simpleStage p.1 p.2)) ctx).1 =
        ps.flatMap (fun p =>
          if p.2 then [Event.skipCheck p.1]
          else [Event.skipCheck p.1, Event.validateCheck p.1, Event.runCall p.1]) ∧
      ∃ c, (runStages false none (ps.map (fun p => simpleStage p.1 p.2)) ctx).2 = .finished c ∧
        c.completed_stages =
          ctx.completed_stages ++ (ps.filter (fun p => p.2 = false)).map Prod.fst := by
  induction ps with
  | nil => intro ctx; exact ⟨rfl, ctx, rfl, by simp⟩
  | cons p rest ih =>
    intro ctx
    rcases p with ⟨n, skip⟩
    rw [List.map_cons, runStages, stageStep_simple]
    have hstop : stopHit none n = false := rfl
    cases skip
    · rw [if_neg (by simp), hstop, if_neg (by simp)]
      obtain ⟨ih1, c', hc', hcc⟩ :=
        ih { current_stage := n, completed_stages := ctx.completed_stages ++ [n] }
      constructor
      · simp [withEvents, ih1]
      · exact ⟨c', by simpa [withEvents] using hc', by simp [hcc, List.append_assoc]⟩
    · rw [if_pos rfl]
      obtain ⟨ih1, c', hc', hcc⟩ := ih { ctx with current_stage := n }
      constructor
      · simp [withEvents, ih1]
      · exact ⟨c', by simpa [withEvents] using hc', by simp [hcc]⟩

/-- A stage that is never skipped but whose `validate_input` always fails;
its `run` would succeed if it were ever called. -/
def invalidStage (n : String) : PipelineStage :=
  { name := n
    should_skip := fun _ => false
    validate_input := fun _ => false
    run := fun c => .ok c }

/-!
Claim theorems.
-/

/-- C1: for every stage list and every name `S` of a stage in that list,
`Pipeline.run` with `startFrom = S` behaves exactly as the stage loop run on
the suffix of the list from the (first) position of `S` onward — same trace,
same outcome — and every operation it invokes (`should_skip`,
`validate_input`, `run`) belongs to a stage of that suffix, so no stage
positioned before `S` is invoked. -/
theorem resume_executes_suffix (stages : List PipelineStage) (ctx : PipelineContext)
    (d : Bool) (sa : Option String) (S : String) (i : Nat)
    (hS : S ≠ "")
    (hi : stages.findIdx? (fun st => st.name = S) = some i) :
    Pipeline.run stages ctx d (some S) sa =
      ⟨(runStages d sa (stages.drop i) ctx).1, (runStages d sa (stages.drop i) ctx).2⟩ ∧
    ∀ e ∈ (Pipeline.run stages ctx d (some S) sa).trace,
      e.stageName ∈ (stages.drop i).map PipelineStage.name := by
  have hstart : startIndex stages (some S) = i := by
    simp [startIndex, hS, hi]
  constructor
  · unfold Pipeline.run
    rw [hstart]
  · intro e he
    unfold Pipeline.run at he
    rw [hstart] at he
    exact runStages_trace_names d sa _ ctx e he

/-- Witness for C1 at a concrete two-stage pipeline resumed from its second
stage. -/
theorem resume_executes_suffix_witness :
    ("b" ≠ "") ∧
    ([simpleStage "a" false, simpleStage "b" false].findIdx?
      (fun st => st.name = "b") = some 1) ∧
    (Pipeline.run [simpleStage "a" false, simpleStage "b" false] ⟨"", []⟩ false (some "b") none =
      ⟨(runStages false none ([simpleStage "a" false, simpleStage "b" false].drop 1) ⟨"", []⟩).1,
        (runStages false none ([simpleStage "a" false, simpleStage "b" false].drop 1) ⟨"", []⟩).2⟩ ∧
    ∀ e ∈ (Pipeline.run [simpleStage "a" false, simpleStage "b" false]
        ⟨"", []⟩ false (some "b") none).trace,
      e.stageName ∈ ([simpleStage "a" false, simpleStage "b" false].drop 1).map
        PipelineStage.name) :=
  ⟨by decide, by decide,
    resume_executes_suffix [simpleStage "a" false, simpleStage "b" false] ⟨"", []⟩
      false none "b" 1 (by decide) (by decide)⟩

/-- C2: if a non-dry-run pipeline reaches a stage (all preceding stages were
worked through and the loop finished them) whose `should_skip` is false and
whose `validate_input` returns false, the run raises the fatal
`ValueError` naming that stage, and the trace stops there: nothing of any
later stage is invoked. -/
theorem invalid_input_aborts (pre post : List PipelineStage) (st : PipelineStage)
    (ctx ctx' : PipelineContext) (tr : List Event) (sa : Option String)
    (hpre : runStages false sa pre ctx = (tr, .finished ctx'))
    (hskip : st.should_skip { ctx' with current_stage := st.name } = false)
    (hval : st.validate_input { ctx' with current_stage := st.name } = false) :
    Pipeline.run (pre ++ st :: post) ctx false none sa =
      ⟨tr ++ [.skipCheck st.name, .validateCheck st.name],
        .failed ("Stage " ++ st.name ++ " cannot run - missing inputs")⟩ := by
  unfold Pipeline.run
  rw [show startIndex (pre ++ st :: post) none = 0 from rfl, List.drop_zero]
  rw [runStages_append false sa pre (st :: post) ctx, hpre]
  dsimp only
  rw [runStages, stageStep_invalid sa st ctx' hskip hval]
  simp [withEvents]

/-- Witness for C2: a three-stage pipeline whose middle stage fails input
validation aborts there with the error naming it. -/
theorem invalid_input_aborts_witness :
    (runStages false none [simpleStage "a" false] ⟨"", []⟩ =
      ([.skipCheck "a", .validateCheck "a", .runCall "a"], .finished ⟨"a", ["a"]⟩)) ∧
    ((invalidStage "b").should_skip { current_stage := "b", completed_stages := ["a"] } = false) ∧
    ((invalidStage "b").validate_input { current_stage := "b", completed_stages := ["a"] } = false) ∧
    Pipeline.run [simpleStage "a" false, invalidStage "b", simpleStage "c" false]
        ⟨"", []⟩ false none none =
      ⟨[.skipCheck "a", .validateCheck "a", .runCall "a",
          .skipCheck "b", .validateCheck "b"],
        .failed ("Stage " ++ "b" ++ " cannot run - missing inputs")⟩ :=
  ⟨by decide, rfl, rfl,
    invalid_input_aborts [simpleStage "a" false] [simpleStage "c" false] (invalidStage "b")
      ⟨"", []⟩ ⟨"a", ["a"]⟩ [.skipCheck "a", .validateCheck "a", .runCall "a"] none
      (by decide) rfl rfl⟩

/-- C4: a dry run invokes no stage's `run` (no `runCall` event ever appears
in the trace) and returns a context whose `completedStageNames` list is
exactly the one it was given. -/
theorem dry_run_no_execution (stages : List PipelineStage) (ctx : PipelineContext)
    (startFrom stopAfter : Option String) :
    (∀ n, Event.runCall n ∉ (Pipeline.run stages ctx true startFrom stopAfter).trace) ∧
    ∃ c, (Pipeline.run stages ctx true startFrom stopAfter).outcome = .finished c ∧
      c.completed_stages = ctx.completed_stages := by
  unfold Pipeline.run
  exact runStages_dryRun stopAfter _ ctx

/-- C10: a `start_from` value that names no stage in the list is silently
ignored: the start index is 0 and the run is identical to one without
`start_from`, so every stage in the list is processed. -/
theorem unknown_start_from_ignored (stages : List PipelineStage) (ctx : PipelineContext)
    (d : Bool) (sa : Option String) (S : String)
    (h : ∀ st ∈ stages, st.name ≠ S) :
    startIndex stages (some S) = 0 ∧
    Pipeline.run stages ctx d (some S) sa = Pipeline.run stages ctx d none sa := by
  have hfind : stages.findIdx? (fun st => st.name = S) = none := by
    rw [List.findIdx?_eq_none_iff]
    intro st hst
    simp [h st hst]
  have h0 : startIndex stages (some S) = 0 := by
    by_cases hS : S = ""
    · simp [startIndex, hS]
    · simp [startIndex, hS, hfind]
  refine ⟨h0, ?_⟩
  unfold Pipeline.run
  rw [h0]
  rfl

/-- Witness for C10: resuming from the unknown name "nope" behaves like a
fresh run over the whole list. -/
theorem unknown_start_from_ignored_witness :
    (∀ st ∈ [simpleStage "a" false, simpleStage "b" false],
      PipelineStage.name st ≠ "nope") ∧
    startIndex [simpleStage "a" false, simpleStage "b" false] (some "nope") = 0 ∧
    Pipeline.run [simpleStage "a" false, simpleStage "b" false] ⟨"", []⟩ false
        (some "nope") none =
      Pipeline.run [simpleStage "a" false, simpleStage "b" false] ⟨"", []⟩ false none none :=
  ⟨by decide,
    (unknown_start_from_ignored [simpleStage "a" false, simpleStage "b" false] ⟨"", []⟩
      false none "nope" (by decide)).1,
    (unknown_start_from_ignored [simpleStage "a" false, simpleStage "b" false] ⟨"", []⟩
      false none "nope" (by decide)).2⟩

/-- The names of the first six stages of the 9-stage pipeline
(`src/src/pipeline/stages.py`), up to and including "generation". -/
def coreSixNames : List String :=
  ["setup", "discovery", "research", "questionnaire", "analysis", "generation"]

/-- The first six stages of the 9-stage pipeline as always-succeeding,
never-skipped stages. -/
def coreSixStages : List PipelineStage :=
  coreSixNames.map (fun n => simpleStage n false)

/-- C5: with `stopAfter = "generation"`, a run of the 9-stage list in which
every stage up to "generation" is neither skipped nor invalid and succeeds
executes exactly stages 1 through "generation" and terminates successfully
right after it: whatever stages follow "generation" ("validation", "review",
"write", …), none of their operations appears in the trace. -/
theorem stop_after_generation (rest : List PipelineStage) (ctx : PipelineContext) :
    Pipeline.run (coreSixStages ++ rest) ctx false none (some "generation") =
      ⟨coreSixNames.flatMap (fun n => [.skipCheck n, .validateCheck n, .runCall n]),
        .stoppedAfter
          { current_stage := "generation"
            completed_stages := ctx.completed_stages ++ coreSixNames }⟩ := by
  unfold Pipeline.run
  rw [show startIndex (coreSixStages ++ rest) none = 0 from rfl, List.drop_zero]
  simp only [coreSixStages, coreSixNames, List.map_cons, List.map_nil, List.cons_append,
    List.nil_append]
  simp [runStages, stageStep_simple, stopHit, withEvents, List.append_assoc]

/-- The 9-stage list of end-to-end scenario A in which stage 5 ("analysis")
has `should_skip` and `validate_input` both returning false, exactly as the
claim stipulates, and every other stage succeeds. -/
def scenAClaimStages : List PipelineStage :=
  [simpleStage "setup" false, simpleStage "discovery" false, simpleStage "research" false,
   simpleStage "questionnaire" false, invalidStage "analysis", simpleStage "generation" false,
   simpleStage "validation" false, simpleStage "review" false, simpleStage "write" false]

/-- Counterexample to C3 as stated: on the stipulated 9-stage pipeline
(stage 5 "analysis" returns false from both `should_skip` and
`validate_input`, all prior stages succeed, `dry_run = false`) the run does
NOT execute stage 5 and does NOT continue to stage 9 — it aborts at stage 5
with the fatal missing-inputs error, `run` of "analysis" is never invoked,
and stages 6–9 are never reached. -/
theorem scenA_claim_counterexample :
    (Pipeline.run scenAClaimStages ⟨"", []⟩ false none none).outcome =
      .failed "Stage analysis cannot run - missing inputs" ∧
    Event.runCall "analysis" ∉ (Pipeline.run scenAClaimStages ⟨"", []⟩ false none none).trace ∧
    Event.skipCheck "generation" ∉
      (Pipeline.run scenAClaimStages ⟨"", []⟩ false none none).trace ∧
    Event.runCall "write" ∉ (Pipeline.run scenAClaimStages ⟨"", []⟩ false none none).trace := by
  decide

/-- The 9-stage list with arbitrary skip flags for every stage other than
"analysis", whose `should_skip` is false and whose `validate_input` is true. -/
def scenAPairs (b1 b2 b3 b4 b6 b7 b8 b9 : Bool) : List (String × Bool) :=
  [("setup", b1), ("discovery", b2), ("research", b3), ("questionnaire", b4),
   ("analysis", false), ("generation", b6), ("validation", b7), ("review", b8), ("write", b9)]

/-- C3 (amended): in a 9-stage run (`dry_run = false`) where stage 5
("analysis") returns false from `should_skip` and true from
`validate_input`, and every stage succeeds, the run reaches stage 5,
executes it, continues to stage 9, and ends with `completedStageNames`
listing stages 1 through 9 except the explicitly skipped ones. -/
theorem scenA_amended (b1 b2 b3 b4 b6 b7 b8 b9 : Bool) (ctx : PipelineContext) :
    Event.runCall "analysis" ∈
      (Pipeline.run ((scenAPairs b1 b2 b3 b4 b6 b7 b8 b9).map (fun p => simpleStage p.1 p.2))
        ctx false none none).trace ∧
    Event.skipCheck "write" ∈
      (Pipeline.run ((scenAPairs b1 b2 b3 b4 b6 b7 b8 b9).map (fun p => simpleStage p.1 p.2))
        ctx false none none).trace ∧
    ∃ c,
      (Pipeline.run ((scenAPairs b1 b2 b3 b4 b6 b7 b8 b9).map (fun p => simpleStage p.1 p.2))
        ctx false none none).outcome = .finished c ∧
      c.completed_stages = ctx.completed_stages ++
        ((scenAPairs b1 b2 b3 b4 b6 b7 b8 b9).filter (fun p => p.2 = false)).map Prod.fst := by
  obtain ⟨h1, c, h2, h3⟩ := runStages_simpleList (scenAPairs b1 b2 b3 b4 b6 b7 b8 b9) ctx
  refine ⟨?_, ?_, c, ?_, h3⟩
  · show Event.runCall "analysis" ∈
      (runStages false none ((scenAPairs b1 b2 b3 b4 b6 b7 b8 b9).map
        (fun p => simpleStage p.1 p.2)) ctx).1
    rw [h1]
    exact List.mem_flatMap.mpr ⟨("analysis", false), by simp [scenAPairs], by simp⟩
  · show Event.skipCheck "write" ∈
      (runStages false none ((scenAPairs b1 b2 b3 b4 b6 b7 b8 b9).map
        (fun p => simpleStage p.1 p.2)) ctx).1
    rw [h1]
    refine List.mem_flatMap.mpr ⟨("write", b9), by simp [scenAPairs], ?_⟩
    cases b9 <;> simp
  · show (runStages false none ((scenAPairs b1 b2 b3 b4 b6 b7 b8 b9).map
        (fun p => simpleStage p.1 p.2)) ctx).2 = .finished c
    exact h2

/-!
Helper lemmas about the aggregation pattern.
-/

/-- The fan-in fold is a flat map of the per-source contributions. -/
theorem collectIssues_eq_flatMap (results : List (String × Except String ReviewData)) :
    collectIssues results = results.flatMap (fun p => runSource p.1 p.2) := by
  have aux : ∀ (rs : List (String × Except String ReviewData)) (acc : List ReviewIssue),
      rs.foldl (fun acc p => acc ++ runSource p.1 p.2) acc =
        acc ++ rs.flatMap (fun p => runSource p.1 p.2) := by
    intro rs
    induction rs with
    | nil => intro acc; simp
    | cons p rest ih => intro acc; simp [ih, List.append_assoc]
  simpa using aux results []

/-- The spec-side view of the surviving raw findings: every issue dict of
every succeeding source, tagged with its source name, in source order. -/
def succeedingFindings (results : List (String × Except String ReviewData)) :
    List (String × RawItem) :=
  results.flatMap (fun p =>
    match p.2 with
    | .ok data => data.issues.map (fun item => (p.1, item))
    | .error _ => [])

/-- The spec-side confidence filter: keep the tagged raw findings whose
confidence (default 0) is at least 80. -/
def confidenceFiltered (l : List (String × RawItem)) : List (String × RawItem) :=
  l.filter (fun q => 80 ≤ q.2.confidence.getD 0)

/-- The spec-side description of the whole aggregation: flatten the
succeeding sources' findings, drop those below the confidence threshold,
deduplicate first-seen by key, and rank. -/
def specAggregate (results : List (String × Except String ReviewData)) : List ReviewIssue :=
  List.insertionSort issueLe
    (dedupBy ((confidenceFiltered (succeedingFindings results)).map
      (fun q => parseItem q.1 q.2)) [])

/-- The collected issue pool is exactly the confidence-filtered merge of the
succeeding sources' raw findings, converted to `ReviewIssue`s. -/
theorem collectIssues_eq_filtered_merge (results : List (String × Except String ReviewData)) :
    collectIssues results =
      (confidenceFiltered (succeedingFindings results)).map (fun q => parseItem q.1 q.2) := by
  rw [collectIssues_eq_flatMap]
  induction results with
  | nil => rfl
  | cons p rest ih =>
    rcases p with ⟨src, r⟩
    have hsf : succeedingFindings ((src, r) :: rest) =
        (match r with
          | .ok data => data.issues.map (fun item => (src, item))
          | .error _ => []) ++ succeedingFindings rest := by
      simp [succeedingFindings]
    rcases r with e | data
    · rw [List.flatMap_cons, hsf]
      simpa [runSource] using ih
    · rw [List.flatMap_cons, hsf]
      unfold confidenceFiltered at ih ⊢
      rw [List.filter_append, List.map_append, ← ih]
      congr 1
      simp only [runSource, parseIssues, List.filter_map, List.map_map]
      rfl

/-- Failing sources contribute nothing to the pool: collecting over all
sources equals collecting over just the succeeding ones. -/
theorem collectIssues_filter_ok (results : List (String × Except String ReviewData)) :
    collectIssues results = collectIssues (results.filter (fun p => sourceOk p.2)) := by
  rw [collectIssues_eq_flatMap, collectIssues_eq_flatMap]
  induction results with
  | nil => rfl
  | cons p rest ih =>
    rcases p with ⟨src, r⟩
    rcases r with e | data
    · simpa [sourceOk, runSource] using ih
    · simp [sourceOk, List.filter_cons, ih]

/-- C6: the aggregation isolates per-source failures.  `review` is a total
function of the source outcomes (a raising source is caught, never
propagated); its result is unchanged when the failing sources are removed,
and it equals exactly the deduplicated, confidence-filtered, ranked merge of
the succeeding sources' findings. -/
theorem aggregator_failure_isolation (results : List (String × Except String ReviewData)) :
    review results = review (results.filter (fun p => sourceOk p.2)) ∧
    review results = specAggregate results := by
  constructor
  · unfold review
    rw [collectIssues_filter_ok]
  · unfold review specAggregate deduplicateIssues
    rw [collectIssues_eq_filtered_merge]

/-- C7 support: once a key is already marked seen, deduplication never emits
an issue with that key. -/
theorem dedupBy_countP_of_seen (l : List ReviewIssue) :
    ∀ (seen : List (String × List Char)) (k : String × List Char), k ∈ seen →
      (dedupBy l seen).countP (fun i => issueKey i == k) = 0 := by
  induction l with
  | nil => intro seen k _; rfl
  | cons i rest ih =>
    intro seen k hk
    rw [dedupBy]
    by_cases hmem : issueKey i ∈ seen
    · rw [if_pos hmem]
      exact ih seen k hk
    · rw [if_neg hmem]
      rw [List.countP_cons]
      have hne : (issueKey i == k) = false := by
        apply beq_false_of_ne
        intro h
        exact hmem (h ▸ hk)
      rw [hne]
      simpa using ih (issueKey i :: seen) k (List.mem_cons_of_mem _ hk)

/-- C7 support: for a key not yet seen, deduplication emits exactly one issue
with that key when the input holds at least one, and none otherwise. -/
theorem dedupBy_countP (l : List ReviewIssue) :
    ∀ (seen : List (String × List Char)) (k : String × List Char), k ∉ seen →
      (dedupBy l seen).countP (fun i => issueKey i == k) =
        min 1 (l.countP (fun i => issueKey i == k)) := by
  induction l with
  | nil => intro seen k _; rfl
  | cons i rest ih =>
    intro seen k hk
    rw [dedupBy]
    by_cases hmem : issueKey i ∈ seen
    · rw [if_pos hmem]
      have hne : (issueKey i == k) = false := by
        apply beq_false_of_ne
        intro h
        exact hk (h ▸ hmem)
      rw [List.countP_cons, hne]
      simpa using ih seen k hk
    · rw [if_neg hmem]
      by_cases hik : issueKey i = k
      · have hbeq : (issueKey i == k) = true := beq_iff_eq.mpr hik
        rw [List.countP_cons, List.countP_cons, hbeq]
        rw [dedupBy_countP_of_seen rest (issueKey i :: seen) k
          (hik ▸ List.mem_cons_self _ _)]
        simp
      · have hbeq : (issueKey i == k) = false := beq_false_of_ne hik
        rw [List.countP_cons, List.countP_cons, hbeq]
        have hk' : k ∉ issueKey i :: seen := by
          intro h
          rcases List.mem_cons.mp h with h | h
          · exact hik h.symm
          · exact hk h
        simpa using ih (issueKey i :: seen) k hk'

/-- C7 support: the issue kept for a fresh key is the first-seen one. -/
theorem dedupBy_find? (l : List ReviewIssue) :
    ∀ (seen : List (String × List Char)) (k : String × List Char), k ∉ seen →
      (dedupBy l seen).find? (fun i => issueKey i == k) =
        l.find? (fun i => issueKey i == k) := by
  induction l with
  | nil => intro seen k _; rfl
  | cons i rest ih =>
    intro seen k hk
    rw [dedupBy]
    by_cases hmem : issueKey i ∈ seen
    · rw [if_pos hmem]
      have hne : (issueKey i == k) = false := by
        apply beq_false_of_ne
        intro h
        exact hk (h ▸ hmem)
      rw [List.find?_cons, hne]
      exact ih seen k hk
    · rw [if_neg hmem]
      by_cases hik : issueKey i = k
      · have hbeq : (issueKey i == k) = true := beq_iff_eq.mpr hik
        rw [List.find?_cons, List.find?_cons, hbeq]
      · have hbeq : (issueKey i == k) = false := beq_false_of_ne hik
        rw [List.find?_cons, List.find?_cons, hbeq]
        have hk' : k ∉ issueKey i :: seen := by
          intro h
          rcases List.mem_cons.mp h with h | h
          · exact hik h.symm
          · exact hk h
        exact ih (issueKey i :: seen) k hk'

/-- An issue with the given severity, category, message and confidence (the
remaining fields empty), for concrete test inputs. -/
def mkIssue (sev cat msg : String) (conf : Int) : ReviewIssue :=
  { severity := sev
    category := cat
    message := msg
    suggestion := ""
    source := ""
    file := ""
    confidence := conf }

/-- C7: deduplication merges by `(category, lower-cased 50-character message
prefix)`; whenever the input holds at least one finding with a given key —
in particular when the same finding arrives twice — the output holds exactly
one finding with that key, and it is the first-seen one. -/
theorem dedup_first_seen_idempotent (issues : List ReviewIssue) (k : String × List Char)
    (h : 0 < issues.countP (fun i => issueKey i == k)) :
    (deduplicateIssues issues).countP (fun i => issueKey i == k) = 1 ∧
    ∃ i, issues.find? (fun j => issueKey j == k) = some i ∧ i ∈ deduplicateIssues issues := by
  have hperm := List.perm_insertionSort issueLe (dedupBy issues [])
  have hcount : (dedupBy issues []).countP (fun i => issueKey i == k) = 1 := by
    rw [dedupBy_countP issues [] k (by simp)]
    omega
  constructor
  · rw [deduplicateIssues, hperm.countP_eq]
    exact hcount
  · have hfind : (dedupBy issues []).find? (fun j => issueKey j == k) =
        issues.find? (fun j => issueKey j == k) := dedupBy_find? issues [] k (by simp)
    have hpos : 0 < (dedupBy issues []).countP (fun i => issueKey i == k) := by
      rw [hcount]; exact Nat.one_pos
    obtain ⟨a, ha, hp⟩ := List.countP_pos_iff.mp hpos
    have hsome : ((dedupBy issues []).find? (fun j => issueKey j == k)).isSome := by
      rw [List.find?_isSome]
      exact ⟨a, ha, hp⟩
    obtain ⟨i, hi⟩ := Option.isSome_iff_exists.mp hsome
    refine ⟨i, by rw [← hfind]; exact hi, ?_⟩
    rw [deduplicateIssues]
    rw [List.mem_insertionSort]
    exact List.mem_of_find?_eq_some hi

/-- Witness for C7: the same finding arriving twice (same category and
message, different reporting model) is merged to a single entry, the
first-seen one. -/
theorem dedup_first_seen_idempotent_witness :
    (0 < (List.countP (fun i => issueKey i == ("security", "permissions too broad".data))
      [mkIssue "high" "security" "Permissions too broad" 90,
        mkIssue "low" "security" "Permissions Too Broad" 85])) ∧
    ((deduplicateIssues
        [mkIssue "high" "security" "Permissions too broad" 90,
          mkIssue "low" "security" "Permissions Too Broad" 85]).countP
      (fun i => issueKey i == ("security", "permissions too broad".data)) = 1 ∧
    ∃ i, List.find? (fun j => issueKey j == ("security", "permissions too broad".data))
        [mkIssue "high" "security" "Permissions too broad" 90,
          mkIssue "low" "security" "Permissions Too Broad" 85] = some i ∧
      i ∈ deduplicateIssues
        [mkIssue "high" "security" "Permissions too broad" 90,
          mkIssue "low" "security" "Permissions Too Broad" 85]) :=
  ⟨by decide,
    dedup_first_seen_idempotent
      [mkIssue "high" "security" "Permissions too broad" 90,
        mkIssue "low" "security" "Permissions Too Broad" 85]
      ("security", "permissions too broad".data) (by decide)⟩

/-- A raw finding with confidence 79, just below the threshold. -/
def item79 : RawItem :=
  { severity := some "high"
    category := some "security"
    message := some "permissions too broad"
    suggestion := some "tighten allow list"
    file := some "settings.json"
    confidence := some 79 }

/-- A raw finding with confidence 80, exactly at the threshold. -/
def item80 : RawItem :=
  { severity := some "high"
    category := some "best_practice"
    message := some "missing memory configuration"
    suggestion := some "add memory section"
    file := some ""
    confidence := some 80 }

/-- C8: the confidence filter of `_parse_issues` is inclusive at 80: every
parsed finding arises from a raw item with confidence at least 80, and on a
concrete source reply holding one finding with confidence 79 and one with
confidence 80, the aggregation returns exactly the confidence-80 finding. -/
theorem confidence_threshold_boundary :
    (∀ (data : ReviewData) (src : String) (i : ReviewIssue),
        i ∈ parseIssues data src →
          ∃ item, item ∈ data.issues ∧ 80 ≤ item.confidence.getD 0 ∧ i = parseItem src item) ∧
    review [("OpenAI GPT-5.2", .ok ⟨[item79, item80]⟩)] =
      [parseItem "OpenAI GPT-5.2" item80] := by
  constructor
  · intro data src i hi
    unfold parseIssues at hi
    obtain ⟨item, hmem, hparse⟩ := List.mem_map.mp hi
    obtain ⟨hmem', hcond⟩ := List.mem_filter.mp hmem
    exact ⟨item, hmem', by simpa using hcond, hparse.symm⟩
  · decide

/-- Witness for C8: the confidence-80 finding of the concrete reply is parsed
and indeed stems from an at-threshold raw item. -/
theorem confidence_threshold_boundary_witness :
    (parseItem "src" item80 ∈ parseIssues ⟨[item79, item80]⟩ "src") ∧
    ∃ item, item ∈ (ReviewData.mk [item79, item80]).issues ∧
      80 ≤ item.confidence.getD 0 ∧ parseItem "src" item80 = parseItem "src" item :=
  ⟨by decide,
    confidence_threshold_boundary.1 ⟨[item79, item80]⟩ "src" (parseItem "src" item80)
      (by decide)⟩

/-!
Ranking: the sort of `_deduplicate_issues` is a stable sort by
`(severity rank ascending, confidence descending)`.
-/

/-- The key comparison is reflexive. -/
theorem keyLe_refl (a : Nat × Int) : keyLe a a :=
  Or.inr ⟨rfl, le_refl _⟩

/-- The key comparison is total. -/
theorem keyLe_total (a b : Nat × Int) : keyLe a b ∨ keyLe b a := by
  rcases Nat.lt_trichotomy a.1 b.1 with h | h | h
  · exact Or.inl (Or.inl h)
  · rcases Int.le_total a.2 b.2 with h2 | h2
    · exact Or.inl (Or.inr ⟨h, h2⟩)
    · exact Or.inr (Or.inr ⟨h.symm, h2⟩)
  · exact Or.inr (Or.inl h)

/-- The key comparison is transitive. -/
theorem keyLe_trans (a b c : Nat × Int) : keyLe a b → keyLe b c → keyLe a c := by
  intro hab hbc
  rcases hab with h | ⟨h1, h2⟩ <;> rcases hbc with g | ⟨g1, g2⟩
  · exact Or.inl (lt_trans h g)
  · exact Or.inl (g1 ▸ h)
  · exact Or.inl (h1 ▸ g)
  · exact Or.inr ⟨h1.trans g1, le_trans h2 g2⟩

instance : IsTotal ReviewIssue issueLe :=
  ⟨fun a b => keyLe_total (issueSortKey a) (issueSortKey b)⟩

instance : IsTrans ReviewIssue issueLe :=
  ⟨fun a b c => keyLe_trans (issueSortKey a) (issueSortKey b) (issueSortKey c)⟩

/-- Two issues the comparison refuses in one direction have different sort
keys. -/
theorem key_ne_of_not_issueLe {x y : ReviewIssue} (h : ¬ issueLe x y) :
    issueSortKey y ≠ issueSortKey x := by
  intro he
  exact h (by rw [issueLe, he]; exact keyLe_refl _)

/-- Inserting an issue into a list keeps, for every sort key, the sublist of
issues with that key intact, the inserted issue (when its key matches) coming
first: the insertion point is always before issues of strictly greater key
and after all others. -/
theorem filter_orderedInsert (x : ReviewIssue) (k : Nat × Int) :
    ∀ l : List ReviewIssue,
      (List.orderedInsert issueLe x l).filter (fun i => issueSortKey i == k) =
        if issueSortKey x == k then
          x :: l.filter (fun i => issueSortKey i == k)
        else l.filter (fun i => issueSortKey i == k) := by
  intro l
  induction l with
  | nil => simp [List.orderedInsert, List.filter_cons]
  | cons y ys ih =>
    rw [List.orderedInsert]
    by_cases hxy : issueLe x y
    · rw [if_pos hxy]
      by_cases hx : (issueSortKey x == k) <;> simp [List.filter_cons, hx]
    · rw [if_neg hxy]
      have hyx : issueSortKey y ≠ issueSortKey x := key_ne_of_not_issueLe hxy
      by_cases hx : (issueSortKey x == k)
      · have hy : (issueSortKey y == k) = false := by
          apply beq_false_of_ne
          intro h
          exact hyx (h.trans (beq_iff_eq.mp hx).symm)
        simp [List.filter_cons, hx, hy, ih]
      · simp [List.filter_cons, hx, ih]

/-- The insertion sort of `_deduplicate_issues` is stable: for every sort
key, it preserves the original relative order of the issues with that key. -/
theorem filter_insertionSort (k : Nat × Int) :
    ∀ l : List ReviewIssue,
      (List.insertionSort issueLe l).filter (fun i => issueSortKey i == k) =
        l.filter (fun i => issueSortKey i == k) := by
  intro l
  induction l with
  | nil => rfl
  | cons x xs ih =>
    rw [List.insertionSort, filter_orderedInsert]
    by_cases hx : (issueSortKey x == k) <;> simp [List.filter_cons, hx, ih]

/-- C9: the ranking of `_deduplicate_issues` is a stable sort of the
deduplicated findings by `(severity rank ascending, confidence descending)`
with rank critical=0, high=1, medium=2, low=3: the output is a permutation
of the deduplicated input, sorted by that key, with the issues of each key
kept in their original relative order; on findings with severities
[low, critical, high, critical] both criticals come first, then high, then
low, equal-severity findings ordered by descending confidence and ties kept
in arrival order. -/
theorem ranking_stable_sort (issues : List ReviewIssue) :
    (deduplicateIssues issues).Perm (dedupBy issues []) ∧
    List.Sorted issueLe (deduplicateIssues issues) ∧
    (∀ k : Nat × Int,
      (deduplicateIssues issues).filter (fun i => issueSortKey i == k) =
        (dedupBy issues []).filter (fun i => issueSortKey i == k)) ∧
    (severityOrder "critical" = 0 ∧ severityOrder "high" = 1 ∧
      severityOrder "medium" = 2 ∧ severityOrder "low" = 3) ∧
    deduplicateIssues
        [mkIssue "low" "c1" "m1" 80, mkIssue "critical" "c2" "m2" 85,
          mkIssue "high" "c3" "m3" 99, mkIssue "critical" "c4" "m4" 85] =
      [mkIssue "critical" "c2" "m2" 85, mkIssue "critical" "c4" "m4" 85,
        mkIssue "high" "c3" "m3" 99, mkIssue "low" "c1" "m1" 80] ∧
    deduplicateIssues
        [mkIssue "low" "c1" "m1" 80, mkIssue "critical" "c2" "m2" 85,
          mkIssue "high" "c3" "m3" 99, mkIssue "critical" "c4" "m4" 95] =
      [mkIssue "critical" "c4" "m4" 95, mkIssue "critical" "c2" "m2" 85,
        mkIssue "high" "c3" "m3" 99, mkIssue "low" "c1" "m1" 80] := by
  refine ⟨List.perm_insertionSort issueLe (dedupBy issues []),
    List.sorted_insertionSort issueLe (dedupBy issues []),
    fun k => filter_insertionSort k (dedupBy issues []),
    ⟨rfl, rfl, rfl, rfl⟩, by decide, by decide⟩
